import Mathlib

/-!
# WebP Converter: a verification development of `Main.cpp`

The development embeds the three parts of `Main.cpp` that carry behaviour:

* the string computations of `thread_function` (target path and the directory
  handed to `create_directories`) and of the discovery loop of `main`
  (`to_uppercase` and the extension filter);
* the dispatcher of `main` (launch loop, reclaim of finished threads, final
  join) together with the workers, as a transition system over an explicit
  state, driven by an arbitrary schedule;
* the lock discipline: each function as the sequence of lock operations and
  shared-variable accesses it performs, in program order.

`std::string` is a list of characters; `size_t` arithmetic is taken modulo
`2 ^ 64`; the counters `completed_count` and `error_count` are mathematical
naturals (an `int` overflow would need more than `2 ^ 31 - 1` jobs).
-/

namespace WebPConverter

/-! ## Strings -/

/-- A `std::string`: a sequence of characters. -/
abbrev Str := List Char

/-- The constant `std::string::npos`, the largest `size_t`. -/
def npos : Nat := 2 ^ 64 - 1

/-- Index (counted from `i`) of the first occurrence of `c`. -/
def find_from (c : Char) : Str → Nat → Option Nat
  | [], _ => none
  | x :: xs, i => if x = c then some i else find_from c xs (i + 1)

/-- Index (counted from `i`) of the last occurrence of `c`. -/
def rfind_from (c : Char) : Str → Nat → Option Nat
  | [], _ => none
  | x :: xs, i =>
    match rfind_from c xs (i + 1) with
    | some j => some j
    | none => if x = c then some i else none

/-- The call `s.find_first_of(c)`: first index of `c`, or `npos`. -/
def find_first_of (s : Str) (c : Char) : Nat := (find_from c s 0).getD npos

/-- The call `s.find_last_of(c)`: last index of `c`, or `npos`. -/
def find_last_of (s : Str) (c : Char) : Nat := (rfind_from c s 0).getD npos

/-- The call `s.substr(pos, count)`: throws `std::out_of_range` (here `none`)
when `pos > s.size()`, otherwise the characters `[pos, pos + count)` that
exist. -/
def substr (s : Str) (pos count : Nat) : Option Str :=
  if s.length < pos then none else some ((s.drop pos).take count)

/-- The call `s.substr(pos)`: same as `substr`, up to the end of the string. -/
def substr_from (s : Str) (pos : Nat) : Option Str :=
  if s.length < pos then none else some (s.drop pos)

/-- The C function `toupper` in the "C" locale (the program never calls
`setlocale`): the letters `a`..`z` move to `A`..`Z`. -/
def toupper (c : Char) : Char :=
  if 97 ≤ c.toNat ∧ c.toNat ≤ 122 then Char.ofNat (c.toNat - 32) else c

/-- `to_uppercase`: `std::transform(begin, end, begin, toupper)`. -/
def to_uppercase (string : Str) : Str := string.map toupper

/-- The global `input_folder{"Input"}`. -/
def input_folder : Str := ['I', 'n', 'p', 'u', 't']

/-- The global `output_folder{"Output"}`. -/
def output_folder : Str := ['O', 'u', 't', 'p', 'u', 't']

/-- The literal `".webp"`. -/
def webp : Str := ['.', 'w', 'e', 'b', 'p']

/-! ## `thread_function`: the derived paths (lines 60 to 63) -/

/-- Lines 60 and 61 of `thread_function`: the local `output` after both
assignments. `none` stands for an exception thrown by `substr`. -/
def output_path (path : Str) : Option Str := do
  let tail ← substr_from path ((find_first_of path '\\' + 1) % 2 ^ 64)
  let output := output_folder ++ '\\' :: tail
  let stem ← substr output 0 (find_last_of output '.')
  pure (stem ++ webp)

/-- Line 63 of `thread_function`: the argument of `create_directories`,
`output.substr(0, path.find_last_of('\\')+1)`. -/
def output_directory (path : Str) : Option Str := do
  let output ← output_path path
  substr output 0 ((find_last_of path '\\' + 1) % 2 ^ 64)

/-! ## `main`: discovery (lines 145 to 155) -/

/-- What the loop reads of a `std::filesystem::directory_entry`. -/
structure directory_entry where
  path : Str
  is_regular_file : Bool
deriving DecidableEq

/-- A directory separator of a Windows path. -/
def is_separator (c : Char) : Bool := c == '\\' || c == '/'

/-- The call `path::filename()`: what follows the last directory separator. -/
def filename (p : Str) : Str :=
  (p.reverse.takeWhile (fun c => !is_separator c)).reverse

/-- The call `path::extension()` as the C++ standard defines it: empty for
the names `.` and `..`, for a name without a period and for a name whose only
period is its first character; otherwise the name from its last period on. -/
def extension (p : Str) : Str :=
  let f := filename p
  if f = ['.'] ∨ f = ['.', '.'] then []
  else
    match rfind_from '.' f 0 with
    | none => []
    | some 0 => []
    | some (i + 1) => f.drop (i + 1)

/-- The call `path::has_extension()`. -/
def has_extension (p : Str) : Bool := !(extension p).isEmpty

/-- The five literals of lines 151 and 152. -/
def supported_extensions : List Str :=
  [['.', 'P', 'N', 'G'], ['.', 'J', 'P', 'G'], ['.', 'J', 'P', 'E', 'G'],
   ['.', 'T', 'I', 'F'], ['.', 'T', 'I', 'F', 'F']]

/-- The loop of lines 146 to 155 over the entries the recursive iterator
yields, in its order: the final value of the global `paths`. Each `continue`
of the source is a branch that skips the entry. -/
def load_paths : List directory_entry → List Str
  | [] => []
  | iterator :: rest =>
    if !iterator.is_regular_file || !has_extension iterator.path then load_paths rest
    else
      let extension := to_uppercase (extension iterator.path)
      if extension ≠ ['.', 'P', 'N', 'G'] ∧ extension ≠ ['.', 'J', 'P', 'G'] ∧
          extension ≠ ['.', 'J', 'P', 'E', 'G'] ∧ extension ≠ ['.', 'T', 'I', 'F'] ∧
          extension ≠ ['.', 'T', 'I', 'F', 'F'] then load_paths rest
      else iterator.path :: load_paths rest

/-! ## Reference notions used to state the path properties -/

/-- The last backslash-separated component of a relative path. -/
def last_component (rel : Str) : Str :=
  (rel.reverse.takeWhile (fun c => c ≠ '\\')).reverse

/-- The string `s` truncated just before its last `c`: the trailing characters
other than `c` are removed, then that `c`. -/
def truncate_before_last (c : Char) (s : Str) : Str :=
  ((s.reverse.dropWhile (fun x => x ≠ c)).drop 1).reverse

/-- The parent directory of a path: the path truncated just before its last
backslash. -/
def parent_directory (p : Str) : Str := truncate_before_last '\\' p

/-- The source path of the file at `rel` under the input root. -/
def source_path (rel : Str) : Str := input_folder ++ '\\' :: rel

/-- The filter of the discovery loop on a regular file at `path`. -/
def passes_filter (path : Str) : Bool :=
  decide (path ∈ load_paths [⟨path, true⟩])

/-- The tree of the discovery scenario, as the recursive iterator yields it:
the files `a.png`, `b\c.jpg` and `d.txt` and the directory `b`. -/
def scenario_tree : List directory_entry :=
  [⟨"Input\\a.png".toList, true⟩, ⟨"Input\\b".toList, false⟩,
   ⟨"Input\\b\\c.jpg".toList, true⟩, ⟨"Input\\d.txt".toList, true⟩]

/-- A tree of four regular files whose extensions mix upper and lower case. -/
def mixed_case_tree : List directory_entry :=
  [⟨"Input\\x.jpeg".toList, true⟩, ⟨"Input\\y.TIF".toList, true⟩,
   ⟨"Input\\s\\z.Tiff".toList, true⟩, ⟨"Input\\w.jPg".toList, true⟩]

/-- The lower-case letter of the upper-case letter `u`; any other character
is left as it is. -/
def lower_of (u : Char) : Char :=
  if 65 ≤ u.toNat ∧ u.toNat ≤ 90 then Char.ofNat (u.toNat + 32) else u

/-- The string `e` spells `t` up to the case of its letters: both have the
same length, and each character of `e` is the character of `t` at that place
or its lower-case letter. -/
def spells_ignoring_case : Str → Str → Bool
  | [], [] => true
  | c :: cs, u :: us => (c == u || c == lower_of u) && spells_ignoring_case cs us
  | _, _ => false

/-! ## `main`: the concurrency limit (line 161) -/

/-- Line 161: `unsigned thread_count{std::thread::hardware_concurrency()/2}`,
for the value `h` that `hardware_concurrency` returns (an `unsigned`). -/
def thread_count (h : Nat) : Nat := (h % 2 ^ 32) / 2

/-! ## Dispatcher and workers as a transition system

A thread id is the number of threads started before it, so ids are never
reused. The standard containers behave atomically (the effect of the missing
locking in `main` is the subject of the lock discipline section). -/

/-- Where a worker stands in `thread_function`: before its counter update,
between the counter update and `finished_thread_ids.push`, after the push. -/
inductive Phase where
  | converting
  | recorded
  | exited
deriving DecidableEq

/-- A started thread: the `path` argument of `thread_function` and its phase. -/
structure Worker where
  path : Str
  phase : Phase
deriving DecidableEq

/-- The control point of `main` in lines 164 to 192. -/
inductive Pc where
  /-- About to test the loop condition and `threads.size() >= thread_count`. -/
  | loop_head
  /-- About to run `threads.emplace_back(thread_function, path)` (line 186). -/
  | launch
  /-- Inside the loop of line 190, the listed threads still to be joined. -/
  | join (rest : List Nat)
  /-- Past the loop of line 190: the summary of line 192 is printed. -/
  | done
deriving DecidableEq

/-- The globals of `Main.cpp` the dispatcher and the workers use, the job
cursor of the loop of line 164, and every thread started so far. -/
structure State where
  /-- The paths the loop of line 164 has not reached yet. -/
  pending : List Str
  /-- The ids of the `std::thread` objects in the global `threads`. -/
  threads : List Nat
  /-- Every thread started so far, by id. -/
  workers : List Worker
  finished_thread_ids : List Nat
  completed_count : Nat
  error_count : Nat
  pc : Pc
deriving DecidableEq

/-- The phase of thread `id`, if it was started. -/
def State.phase_of (s : State) (id : Nat) : Option Phase :=
  (s.workers[id]?).map Worker.phase

/-- The state when line 164 is reached: `paths` loaded, nothing started. -/
def initial (paths : List Str) : State :=
  { pending := paths, threads := [], workers := [], finished_thread_ids := [],
    completed_count := 0, error_count := 0, pc := Pc.loop_head }

/-- The body of `thread_error` (lines 48 to 50). -/
def thread_error (s : State) : State :=
  { s with error_count := s.error_count + 1 }

/-- One critical section of `thread_function` run by thread `id`; `ok id`
tells whether the conversion of job `id` reaches line 93 without throwing.
A converting worker updates one counter (line 95, or `thread_error` through
the handlers of lines 103 and 104), a recorded worker pushes its id (line
108); an exited or unknown thread does nothing. -/
def thread_function (ok : Nat → Bool) (id : Nat) (s : State) : State :=
  match s.workers[id]? with
  | some ⟨path, Phase.converting⟩ =>
    let s := { s with workers := s.workers.set id ⟨path, Phase.recorded⟩ }
    if ok id then { s with completed_count := s.completed_count + 1 }
    else thread_error s
  | some ⟨path, Phase.recorded⟩ =>
    { s with workers := s.workers.set id ⟨path, Phase.exited⟩,
             finished_thread_ids := s.finished_thread_ids ++ [id] }
  | _ => s

/-- The loop of lines 177 to 182: the vector after the scan. An erased
element shifts its successor into `index`, and `++index` then steps over that
successor untested. -/
def erase_finished (id : Nat) : List Nat → List Nat
  | [] => []
  | [t] => if t = id then [] else [t]
  | t :: u :: rest =>
    if t = id then u :: erase_finished id rest else t :: erase_finished id (u :: rest)

/-- One step of `main` in lines 164 to 192. While `finished_thread_ids` is
empty at line 170, or the thread to join is still running at line 190, the
step leaves the state as it is. -/
def main_step (thread_count : Nat) (s : State) : State :=
  match s.pc with
  | Pc.loop_head =>
    match s.pending with
    | [] => { s with pc := Pc.join s.threads }
    | _ :: _ =>
      if s.threads.length ≥ thread_count then
        match s.finished_thread_ids with
        | [] => s
        | id :: queue =>
          { s with finished_thread_ids := queue,
                   threads := erase_finished id s.threads, pc := Pc.launch }
      else { s with pc := Pc.launch }
  | Pc.launch =>
    match s.pending with
    | [] => s
    | path :: rest =>
      { s with pending := rest, threads := s.threads ++ [s.workers.length],
               workers := s.workers ++ [⟨path, Phase.converting⟩], pc := Pc.loop_head }
  | Pc.join [] => { s with pc := Pc.done }
  | Pc.join (t :: rest) =>
    if s.phase_of t = some Phase.exited then { s with pc := Pc.join rest } else s
  | Pc.done => s

/-- What the scheduler runs next: `main`, or the thread with the given id. -/
inductive Event where
  | main
  | worker (id : Nat)
deriving DecidableEq

/-- One scheduled step. -/
def step (thread_count : Nat) (ok : Nat → Bool) (s : State) : Event → State
  | Event.main => main_step thread_count s
  | Event.worker id => thread_function ok id s

/-- The state after a schedule. -/
def run (thread_count : Nat) (ok : Nat → Bool) (s : State) (schedule : List Event) : State :=
  schedule.foldl (step thread_count ok) s

/-- The number of jobs among the first `n` whose conversion succeeds. -/
def succeeded (ok : Nat → Bool) (n : Nat) : Nat := (List.range n).countP (fun i => ok i)

/-- The number of jobs among the first `n` whose conversion fails. -/
def failed (ok : Nat → Bool) (n : Nat) : Nat := (List.range n).countP (fun i => !ok i)

/-- Five jobs, named after their position in `paths`. -/
def five_paths : List Str :=
  ["Input\\a.png".toList, "Input\\b.png".toList, "Input\\c.png".toList,
   "Input\\d.png".toList, "Input\\e.png".toList]

/-- A schedule that runs five jobs to the end with two threads at a time. -/
def five_schedule : List Event :=
  [Event.main, Event.main, Event.main, Event.main,
   Event.worker 1, Event.worker 0, Event.worker 1, Event.main, Event.main,
   Event.worker 0, Event.worker 0, Event.main, Event.main, Event.main,
   Event.worker 2, Event.worker 2, Event.worker 3, Event.main, Event.main,
   Event.worker 4, Event.worker 3, Event.worker 4,
   Event.main, Event.main, Event.main, Event.main, Event.main]

/-- The number of threads past their counter update whose job has outcome `b`. -/
def recorded_count (ok : Nat → Bool) (b : Bool) (ws : List Worker) : Nat :=
  (List.range ws.length).countP
    (fun i => (ok i == b) && decide ((ws[i]?).map Worker.phase ≠ some Phase.converting))

/-- The invariant of the dispatcher: what holds of every state a schedule
reaches from `initial paths` under the limit `limit`. -/
structure Inv (limit : Nat) (ok : Nat → Bool) (paths : List Str) (s : State) : Prop where
  threads_nodup : s.threads.Nodup
  threads_lt : ∀ t ∈ s.threads, t < s.workers.length
  queue_nodup : s.finished_thread_ids.Nodup
  queue_sub : ∀ t ∈ s.finished_thread_ids, t ∈ s.threads
  queue_exited : ∀ t ∈ s.threads,
    (t ∈ s.finished_thread_ids ↔ s.phase_of t = some Phase.exited)
  detached_exited : ∀ i, i < s.workers.length → i ∉ s.threads →
    s.phase_of i = some Phase.exited
  size_le : s.threads.length ≤ limit
  at_launch : s.pc = Pc.launch → s.threads.length < limit ∧ s.pending ≠ []
  at_join : ∀ rest, s.pc = Pc.join rest →
    s.pending = [] ∧ (∀ t ∈ rest, t ∈ s.threads) ∧
      ∀ t ∈ s.threads, t ∈ rest ∨ s.phase_of t = some Phase.exited
  at_done : s.pc = Pc.done →
    s.pending = [] ∧ ∀ t ∈ s.threads, s.phase_of t = some Phase.exited
  launched : s.workers.map Worker.path ++ s.pending = paths
  completed : s.completed_count = recorded_count ok true s.workers
  errors : s.error_count = recorded_count ok false s.workers

/-- The outcomes of the five-job run: the launch of the fourth job fails. -/
def five_ok (i : Nat) : Bool := i != 3

/-! ## Lock discipline

Each function is the sequence of operations on `completion_mutex` and of
accesses to the shared progress state that one call performs, in program
order. -/

/-- The shared progress state. -/
inductive Shared where
  | completed_count
  | error_count
  | finished_thread_ids
deriving DecidableEq

/-- An operation on `completion_mutex` or an access to the shared state. -/
inductive Op where
  /-- Construction of a `std::lock_guard` on `completion_mutex`. -/
  | lock
  /-- End of the scope of the `std::lock_guard`. -/
  | unlock
  | read (v : Shared)
  | write (v : Shared)
deriving DecidableEq

/-- The function `thread_error`: line 48 locks, line 50 increments, the guard
is released at line 51. -/
def thread_error_ops : List Op :=
  [Op.lock, Op.read Shared.error_count, Op.write Shared.error_count, Op.unlock]

/-- The function `thread_function`: on success line 93 locks, line 95
increments, lines 97 and 98 read, the guard is released at line 100; on
failure a handler of lines 103 and 104 calls `thread_error`; then line 107
locks, line 108 pushes, and the guard is released at line 109. -/
def thread_function_ops (ok : Bool) : List Op :=
  (if ok then
    [Op.lock, Op.read Shared.completed_count, Op.write Shared.completed_count,
     Op.read Shared.completed_count, Op.read Shared.completed_count, Op.unlock]
   else thread_error_ops) ++
  [Op.lock, Op.write Shared.finished_thread_ids, Op.unlock]

/-- Lines 170 to 175 of `main` for one path that finds the vector full: the
`size()` poll of line 170 fails `polls` times and then succeeds, line 174
reads `front()`, line 175 pops. -/
def main_reclaim_ops (polls : Nat) : List Op :=
  List.replicate (polls + 1) (Op.read Shared.finished_thread_ids) ++
  [Op.read Shared.finished_thread_ids, Op.write Shared.finished_thread_ids]

/-- The function `main` from line 164 on: one `main_reclaim_ops` for each
path that finds the vector full (`reclaims` lists their failed polls), then
the read of `error_count` at line 192. -/
def main_ops (reclaims : List Nat) : List Op :=
  reclaims.flatMap main_reclaim_ops ++ [Op.read Shared.error_count]

/-- The accesses a thread makes while it does not hold the mutex; `held`
tells whether it holds it at the start. -/
def unguarded_from (held : Bool) : List Op → List Shared
  | [] => []
  | Op.lock :: rest => unguarded_from true rest
  | Op.unlock :: rest => unguarded_from false rest
  | Op.read v :: rest =>
    if held then unguarded_from held rest else v :: unguarded_from held rest
  | Op.write v :: rest =>
    if held then unguarded_from held rest else v :: unguarded_from held rest

/-- The accesses of a call made without holding `completion_mutex`. -/
def unguarded (ops : List Op) : List Shared := unguarded_from false ops

/-- Every thread started so far has pushed its id. -/
def AllExited (s : State) : Prop :=
  ∀ i, i < s.workers.length → s.phase_of i = some Phase.exited

/-- The schedule that runs each of the listed threads through both of its
critical sections. -/
def drain (ids : List Nat) : List Event :=
  ids.flatMap (fun i => [Event.worker i, Event.worker i])

/-! ## Lemmas on the string functions -/

theorem find_from_append (c : Char) (a b : Str) (i : Nat) (h : c ∉ a) :
    find_from c (a ++ c :: b) i = some (i + a.length) := by
  induction a generalizing i with
  | nil => simp [find_from]
  | cons x xs ih =>
    have hx : x ≠ c := fun e => h (by simp [e])
    have hxs : c ∉ xs := fun e => h (by simp [e])
    simp [find_from, hx, ih (i + 1) hxs]
    omega

theorem rfind_from_none (c : Char) (b : Str) (i : Nat) (h : c ∉ b) :
    rfind_from c b i = none := by
  induction b generalizing i with
  | nil => simp [rfind_from]
  | cons x xs ih =>
    have hx : x ≠ c := fun e => h (by simp [e])
    have hxs : c ∉ xs := fun e => h (by simp [e])
    simp [rfind_from, hx, ih (i + 1) hxs]

theorem rfind_from_append (c : Char) (a b : Str) (i : Nat) (h : c ∉ b) :
    rfind_from c (a ++ c :: b) i = some (i + a.length) := by
  induction a generalizing i with
  | nil => simp [rfind_from, rfind_from_none c b (i + 1) h]
  | cons x xs ih =>
    simp [rfind_from, ih (i + 1)]
    omega

theorem rfind_from_some_mem (c : Char) (s : Str) (i j : Nat)
    (h : rfind_from c s i = some j) : c ∈ s := by
  by_contra hc
  rw [rfind_from_none c s i hc] at h
  cases h

theorem split_at_last (c : Char) (s : Str) (h : c ∈ s) :
    ∃ a b, s = a ++ c :: b ∧ c ∉ b := by
  induction s with
  | nil => cases h
  | cons x xs ih =>
    by_cases hxs : c ∈ xs
    · obtain ⟨a, b, hab, hb⟩ := ih hxs
      exact ⟨x :: a, b, by simp [hab], hb⟩
    · have hx : c = x := by
        rcases List.mem_cons.mp h with e | e
        · exact e
        · exact absurd e hxs
      exact ⟨[], xs, by simp [hx], hxs⟩

theorem dropWhile_append_stop {α : Type} (p : α → Bool) (l₁ l₂ : List α) (x : α)
    (h₁ : ∀ y ∈ l₁, p y = true) (hx : p x = false) :
    (l₁ ++ x :: l₂).dropWhile p = x :: l₂ := by
  induction l₁ with
  | nil => simp [List.dropWhile, hx]
  | cons y ys ih =>
    have hy : p y = true := h₁ y (by simp)
    simp only [List.cons_append, List.dropWhile, hy]
    exact ih (fun z hz => h₁ z (by simp [hz]))

theorem takeWhile_append_stop {α : Type} (p : α → Bool) (l₁ l₂ : List α) (x : α)
    (h₁ : ∀ y ∈ l₁, p y = true) (hx : p x = false) :
    (l₁ ++ x :: l₂).takeWhile p = l₁ := by
  induction l₁ with
  | nil => simp [List.takeWhile, hx]
  | cons y ys ih =>
    have hy : p y = true := h₁ y (by simp)
    have := ih (fun z hz => h₁ z (by simp [hz]))
    simp [List.takeWhile_cons, hy, this]

theorem truncate_before_last_append (c : Char) (a b : Str) (h : c ∉ b) :
    truncate_before_last c (a ++ c :: b) = a := by
  unfold truncate_before_last
  have hr : (a ++ c :: b).reverse = b.reverse ++ c :: a.reverse := by simp
  rw [hr, dropWhile_append_stop]
  · simp
  · intro y hy
    have : y ≠ c := fun e => h (by simpa [e] using hy)
    simpa using this
  · simp

/-- A relative path whose last component holds a period splits at its last
period, and what follows holds neither a period nor a backslash. -/
theorem split_last_component (rel : Str) (h : '.' ∈ last_component rel) :
    ∃ a b, rel = a ++ '.' :: b ∧ '.' ∉ b ∧ '\\' ∉ b := by
  have hsplit : rel = (rel.reverse.dropWhile (fun c => c ≠ '\\')).reverse ++ last_component rel := by
    unfold last_component
    rw [← List.reverse_append, List.takeWhile_append_dropWhile, List.reverse_reverse]
  have hno : '\\' ∉ last_component rel := by
    unfold last_component
    intro hm
    have := List.mem_takeWhile_imp (List.mem_reverse.mp hm)
    simp at this
  obtain ⟨a, b, hab, hb⟩ := split_at_last '.' _ h
  refine ⟨(rel.reverse.dropWhile (fun c => c ≠ '\\')).reverse ++ a, b, ?_, hb, ?_⟩
  · rw [List.append_assoc, ← hab]; exact hsplit
  · intro hm
    exact hno (by rw [hab]; simp [hm])

theorem output_path_split (a b : Str) (h : '.' ∉ b) :
    output_path (source_path (a ++ '.' :: b)) = some (output_folder ++ '\\' :: a ++ webp) := by
  have h1 : find_first_of (source_path (a ++ '.' :: b)) '\\' = 5 := by
    unfold find_first_of source_path
    rw [find_from_append _ _ _ _ (by decide)]
    rfl
  have h2 : find_last_of (output_folder ++ '\\' :: (a ++ '.' :: b)) '.' = (output_folder ++ '\\' :: a).length := by
    unfold find_last_of
    have e : output_folder ++ '\\' :: (a ++ '.' :: b) = (output_folder ++ '\\' :: a) ++ '.' :: b := by simp
    rw [e, rfind_from_append _ _ _ _ h]
    simp
  have h3 : substr_from (source_path (a ++ '.' :: b)) 6 = some (a ++ '.' :: b) := by
    simp [substr_from, source_path, input_folder]
  have e : output_folder ++ '\\' :: (a ++ '.' :: b) = (output_folder ++ '\\' :: a) ++ '.' :: b := by simp
  have ht : List.take (output_folder ++ '\\' :: a).length
      ((output_folder ++ '\\' :: a) ++ '.' :: b) = output_folder ++ '\\' :: a :=
    List.take_left' rfl
  have h6 : (5 + 1) % 2 ^ 64 = 6 := by norm_num
  unfold output_path
  rw [h1, h6, h3]
  simp only [Option.bind_eq_bind, Option.some_bind]
  rw [h2, e]
  simp only [substr, Nat.not_lt_zero, if_false, List.drop_zero]
  rw [ht]
  simp

theorem mem_takeWhile_append_stop {α : Type} (p : α → Bool) (l₁ l₂ : List α) (x y : α)
    (hx : p x = false) (hy : y ∈ (l₁ ++ x :: l₂).takeWhile p) : y ∈ l₁ := by
  induction l₁ with
  | nil => simp [List.takeWhile, hx] at hy
  | cons z zs ih =>
    by_cases hz : p z = true
    · simp only [List.cons_append, List.takeWhile_cons, hz, if_true, List.mem_cons] at hy
      rcases hy with e | e
      · simp [e]
      · simp [ih e]
    · simp [List.takeWhile_cons, hz] at hy

theorem mem_filename_source_path (rel : Str) (c : Char)
    (h : c ∈ filename (source_path rel)) : c ∈ rel := by
  unfold filename source_path at h
  have hr : (input_folder ++ '\\' :: rel).reverse = rel.reverse ++ '\\' :: input_folder.reverse := by
    simp
  rw [hr] at h
  have := mem_takeWhile_append_stop _ _ _ '\\' c (by decide) (List.mem_reverse.mp h)
  exact List.mem_reverse.mp this

theorem mem_filename_of_extension (p : Str) (h : extension p ≠ []) : '.' ∈ filename p := by
  unfold extension at h
  simp only at h
  split at h
  · exact absurd rfl h
  · split at h
    · exact absurd rfl h
    · exact absurd rfl h
    · next i hi => exact rfind_from_some_mem _ _ _ _ hi

theorem load_paths_eq_filter (entries : List directory_entry) :
    load_paths entries =
      (entries.filter (fun e => e.is_regular_file && has_extension e.path &&
        decide (to_uppercase (extension e.path) ∈ supported_extensions))).map
        directory_entry.path := by
  induction entries with
  | nil => rfl
  | cons e es ih =>
    unfold load_paths
    by_cases h1 : e.is_regular_file = true <;> by_cases h2 : has_extension e.path = true <;>
      by_cases h3 : to_uppercase (extension e.path) ∈ supported_extensions
    all_goals (simp_all [supported_extensions, List.filter_cons]; try tauto)

theorem dot_mem_of_passes_filter (rel : Str) (h : passes_filter (source_path rel) = true) :
    '.' ∈ rel := by
  unfold passes_filter at h
  rw [load_paths_eq_filter] at h
  have hx : has_extension (source_path rel) = true := by
    by_contra hc
    simp [List.filter_cons, hc] at h
  apply mem_filename_source_path
  apply mem_filename_of_extension
  intro e
  simp [has_extension, e] at hx

theorem output_path_of_dot_mem (rel : Str) (h : '.' ∈ rel) :
    output_path (source_path rel) =
      some (output_folder ++ '\\' :: truncate_before_last '.' rel ++ webp) := by
  obtain ⟨a, b, hab, hb⟩ := split_at_last '.' rel h
  rw [hab, output_path_split a b hb, truncate_before_last_append '.' a b hb]

/-! ## The claims on the path computations -/

/-- C5: for a relative path `rel` whose last component holds a period, the
target path `thread_function` derives from the source path `Input\rel` is
`Output\` followed by `rel` truncated just before its last period and by
`.webp`. -/
theorem output_path_mirrors_source (rel : Str) (h : '.' ∈ last_component rel) :
    output_path (input_folder ++ '\\' :: rel) =
      some (output_folder ++ '\\' :: truncate_before_last '.' rel ++ webp) := by
  obtain ⟨a, b, hab, hb, _⟩ := split_last_component rel h
  exact output_path_of_dot_mem rel (by rw [hab]; simp)

theorem output_path_mirrors_source_witness :
    '.' ∈ last_component "b\\c.jpg".toList ∧
    output_path "Input\\b\\c.jpg".toList = some "Output\\b\\c.webp".toList ∧
    '.' ∈ last_component "a.png".toList ∧
    output_path "Input\\a.png".toList = some "Output\\a.webp".toList :=
  ⟨by decide, output_path_mirrors_source "b\\c.jpg".toList (by decide),
   by decide, output_path_mirrors_source "a.png".toList (by decide)⟩

/-- C8: for a source path `Input\rel` whose last component holds a period (and
whose length fits a `size_t`), the directory handed to `create_directories`,
the target path cut at the index of the last backslash of the source path plus
one, is the parent directory of the target path. -/
theorem created_directory_is_parent (rel : Str) (h : '.' ∈ last_component rel)
    (hlen : (input_folder ++ '\\' :: rel).length < 2 ^ 64) :
    ∃ target, output_path (input_folder ++ '\\' :: rel) = some target ∧
      output_directory (input_folder ++ '\\' :: rel) = some (parent_directory target) := by
  obtain ⟨a, b, hab, hb, hbs⟩ := split_last_component rel h
  obtain ⟨u, y, huy, hy⟩ := split_at_last '\\' ('\\' :: a) (by simp)
  have htarget := output_path_split a b hb
  rw [← hab] at htarget
  unfold source_path at htarget
  refine ⟨_, htarget, ?_⟩
  have hsrc : input_folder ++ '\\' :: rel = (input_folder ++ u) ++ '\\' :: (y ++ '.' :: b) := by
    rw [hab]
    have : input_folder ++ '\\' :: (a ++ '.' :: b) = input_folder ++ ('\\' :: a) ++ '.' :: b := by
      simp
    rw [this, huy]; simp
  have hyb : '\\' ∉ y ++ '.' :: b := by
    simp only [List.mem_append, List.mem_cons, not_or]
    exact ⟨hy, by decide, hbs⟩
  have hfind : find_last_of (input_folder ++ '\\' :: rel) '\\' = (input_folder ++ u).length := by
    unfold find_last_of
    rw [hsrc, rfind_from_append _ _ _ _ hyb]
    simp
  have htgt : output_folder ++ '\\' :: a ++ webp = (output_folder ++ u) ++ '\\' :: (y ++ webp) := by
    have : output_folder ++ '\\' :: a ++ webp = output_folder ++ ('\\' :: a) ++ webp := by simp
    rw [this, huy]; simp
  have hyw : '\\' ∉ y ++ webp := by
    simp only [List.mem_append, not_or]
    exact ⟨hy, by decide⟩
  have hparent : parent_directory (output_folder ++ '\\' :: a ++ webp) = output_folder ++ u := by
    unfold parent_directory
    rw [htgt, truncate_before_last_append _ _ _ hyw]
  have hidx : ((input_folder ++ u).length + 1) % 2 ^ 64 = (output_folder ++ u).length := by
    have hl : (input_folder ++ u).length + 1 < 2 ^ 64 := by
      have := congrArg List.length hsrc
      simp only [List.length_append, List.length_cons] at this hlen ⊢
      omega
    rw [Nat.mod_eq_of_lt hl]
    simp [input_folder, output_folder]
  unfold output_directory
  rw [htarget]
  simp only [Option.bind_eq_bind, Option.some_bind]
  rw [hfind, hidx, hparent, htgt]
  simp only [substr, Nat.not_lt_zero, if_false, List.drop_zero]
  rw [List.take_left' rfl]

theorem created_directory_is_parent_witness :
    '.' ∈ last_component "b\\c.jpg".toList ∧
    ("Input\\b\\c.jpg".toList).length < 2 ^ 64 ∧
    ∃ target, output_path "Input\\b\\c.jpg".toList = some target ∧
      output_directory "Input\\b\\c.jpg".toList = some (parent_directory target) :=
  ⟨by decide, by decide,
   created_directory_is_parent "b\\c.jpg".toList (by decide) (by decide)⟩

/-- C9, as the code has it: for two source paths under the input root that
both pass the extension filter, the derived target paths are equal exactly
when the two relative paths agree up to their last period. -/
theorem output_path_eq_iff_same_stem (rel₁ rel₂ : Str)
    (h₁ : passes_filter (input_folder ++ '\\' :: rel₁) = true)
    (h₂ : passes_filter (input_folder ++ '\\' :: rel₂) = true) :
    output_path (input_folder ++ '\\' :: rel₁) = output_path (input_folder ++ '\\' :: rel₂) ↔
      truncate_before_last '.' rel₁ = truncate_before_last '.' rel₂ := by
  have e₁ := output_path_of_dot_mem rel₁ (dot_mem_of_passes_filter rel₁ h₁)
  have e₂ := output_path_of_dot_mem rel₂ (dot_mem_of_passes_filter rel₂ h₂)
  unfold source_path at e₁ e₂
  rw [e₁, e₂]
  simp

theorem output_path_eq_iff_same_stem_witness :
    passes_filter "Input\\b\\c.jpg".toList = true ∧
    passes_filter "Input\\b\\d.jpg".toList = true ∧
    (output_path "Input\\b\\c.jpg".toList = output_path "Input\\b\\d.jpg".toList ↔
      truncate_before_last '.' "b\\c.jpg".toList = truncate_before_last '.' "b\\d.jpg".toList) :=
  ⟨by decide, by decide,
   output_path_eq_iff_same_stem "b\\c.jpg".toList "b\\d.jpg".toList (by decide) (by decide)⟩

/-- C9 fails as stated: `Input\a.png` and `Input\a.jpg` are distinct, both pass
the extension filter, and both derive the target `Output\a.webp`. -/
theorem distinct_sources_share_target :
    ¬ ∀ rel₁ rel₂ : Str,
      passes_filter (input_folder ++ '\\' :: rel₁) = true →
      passes_filter (input_folder ++ '\\' :: rel₂) = true →
      input_folder ++ '\\' :: rel₁ ≠ input_folder ++ '\\' :: rel₂ →
      output_path (input_folder ++ '\\' :: rel₁) ≠ output_path (input_folder ++ '\\' :: rel₂) := by
  intro h
  exact h "a.png".toList "a.jpg".toList (by decide) (by decide) (by decide) (by decide)

theorem toNat_ofNat_ascii (k : Nat) (h : k < 128) : (Char.ofNat k).toNat = k := by
  have hall : ∀ i : Fin 128, (Char.ofNat i.val).toNat = i.val := by decide
  exact hall ⟨k, h⟩

/-- Up to a period or an upper-case letter `u`, `toupper` sends exactly `u`
itself and its lower-case letter. -/
theorem toupper_eq_iff (c u : Char) (hu : u = '.' ∨ (65 ≤ u.toNat ∧ u.toNat ≤ 90)) :
    toupper c = u ↔ c = u ∨ c = lower_of u := by
  have hdot : ('.' : Char).toNat = 46 := by decide
  by_cases hc : 97 ≤ c.toNat ∧ c.toNat ≤ 122
  · have ht : toupper c = Char.ofNat (c.toNat - 32) := by simp [toupper, hc]
    rw [ht]
    constructor
    · intro h
      have hn : u.toNat = c.toNat - 32 := by
        rw [← h]; exact toNat_ofNat_ascii _ (by omega)
      right
      have hup : 65 ≤ u.toNat ∧ u.toNat ≤ 90 := by omega
      unfold lower_of
      rw [if_pos hup, hn]
      have : c.toNat - 32 + 32 = c.toNat := by omega
      rw [this, Char.ofNat_toNat]
    · intro h
      rcases h with h | h
      · exfalso
        rw [h] at hc
        rcases hu with e | e
        · rw [e, hdot] at hc; omega
        · omega
      · rcases hu with e | e
        · exfalso
          have : lower_of u = '.' := by rw [e]; decide
          rw [h, this, hdot] at hc
          omega
        · unfold lower_of at h
          rw [if_pos e] at h
          have hn : c.toNat = u.toNat + 32 := by
            rw [h]; exact toNat_ofNat_ascii _ (by omega)
          rw [hn]
          have : u.toNat + 32 - 32 = u.toNat := by omega
          rw [this, Char.ofNat_toNat]
  · have ht : toupper c = c := by simp only [toupper, hc, if_false]
    rw [ht]
    constructor
    · intro h; exact Or.inl h
    · intro h
      rcases h with h | h
      · exact h
      · rcases hu with e | e
        · rw [h, e]; decide
        · exfalso
          unfold lower_of at h
          rw [if_pos e] at h
          have hn : c.toNat = u.toNat + 32 := by
            rw [h]; exact toNat_ofNat_ascii _ (by omega)
          omega

/-- Against a string of periods and upper-case letters, `to_uppercase`
decides the spelling up to case. -/
theorem to_uppercase_eq_iff (t : Str)
    (ht : ∀ u ∈ t, u = '.' ∨ (65 ≤ u.toNat ∧ u.toNat ≤ 90)) :
    ∀ e : Str, to_uppercase e = t ↔ spells_ignoring_case e t = true := by
  induction t with
  | nil =>
    intro e
    cases e with
    | nil => simp [to_uppercase, spells_ignoring_case]
    | cons c cs => simp [to_uppercase, spells_ignoring_case]
  | cons u us ih =>
    intro e
    cases e with
    | nil => simp [to_uppercase, spells_ignoring_case]
    | cons c cs =>
      have hhead := toupper_eq_iff c u (ht u (by simp))
      have htail := ih (fun v hv => ht v (List.mem_cons_of_mem _ hv)) cs
      unfold to_uppercase at htail ⊢
      simp only [List.map_cons, List.cons.injEq, spells_ignoring_case, Bool.and_eq_true,
        Bool.or_eq_true, beq_iff_eq]
      rw [hhead, htail]

theorem supported_extensions_upper :
    ∀ t ∈ supported_extensions, ∀ u ∈ t, u = '.' ∨ (65 ≤ u.toNat ∧ u.toNat ≤ 90) := by
  decide

theorem supported_iff_spells (e : Str) :
    to_uppercase e ∈ supported_extensions ↔
      ∃ t ∈ supported_extensions, spells_ignoring_case e t = true := by
  constructor
  · intro h
    exact ⟨to_uppercase e, h,
      (to_uppercase_eq_iff _ (supported_extensions_upper _ h) e).mp rfl⟩
  · rintro ⟨t, ht, hs⟩
    have := (to_uppercase_eq_iff t (supported_extensions_upper t ht) e).mpr hs
    rw [this]; exact ht

/-- C6: a regular file that has an extension is added to the job list by the
discovery loop exactly when its extension, upper-cased by `to_uppercase`, is one
of `.PNG`, `.JPG`, `.JPEG`, `.TIF`, `.TIFF`, that is, exactly when its
extension spells one of these five up to the case of its letters; `.png`,
`.Png` and `.PNG` all upper-case to `.PNG`, `.txt` and `.webp` upper-case to
none of the five, the tree holding `a.png`, `b\c.jpg` and `d.txt` yields the
two jobs `a.png` and `b\c.jpg`, in that order, and files named `.jpeg`,
`.TIF`, `.Tiff` and `.jPg` are all added. -/
theorem load_paths_accepts_iff_supported :
    (∀ (entries : List directory_entry) (e : directory_entry), e ∈ entries →
      e.is_regular_file = true → has_extension e.path = true →
      (e.path ∈ load_paths entries ↔
        to_uppercase (extension e.path) ∈
          [".PNG".toList, ".JPG".toList, ".JPEG".toList, ".TIF".toList, ".TIFF".toList]) ∧
      (e.path ∈ load_paths entries ↔
        ∃ t ∈ [".PNG".toList, ".JPG".toList, ".JPEG".toList, ".TIF".toList, ".TIFF".toList],
          spells_ignoring_case (extension e.path) t = true)) ∧
    (to_uppercase ".png".toList = ".PNG".toList ∧ to_uppercase ".Png".toList = ".PNG".toList ∧
      to_uppercase ".PNG".toList = ".PNG".toList) ∧
    (to_uppercase ".txt".toList ∉ supported_extensions ∧
      to_uppercase ".webp".toList ∉ supported_extensions) ∧
    load_paths scenario_tree = ["Input\\a.png".toList, "Input\\b\\c.jpg".toList] ∧
    load_paths mixed_case_tree =
      ["Input\\x.jpeg".toList, "Input\\y.TIF".toList, "Input\\s\\z.Tiff".toList,
       "Input\\w.jPg".toList] := by
  refine ⟨?_, by decide, by decide, by decide, by decide⟩
  intro entries e he hreg hext
  have hiff : e.path ∈ load_paths entries ↔
      to_uppercase (extension e.path) ∈ supported_extensions := by
    rw [load_paths_eq_filter]
    constructor
    · intro h
      obtain ⟨e', he', hp⟩ := List.mem_map.mp h
      have := (List.mem_filter.mp he').2
      simp only [Bool.and_eq_true, decide_eq_true_eq] at this
      rw [hp] at this
      exact this.2
    · intro h
      refine List.mem_map.mpr ⟨e, List.mem_filter.mpr ⟨he, ?_⟩, rfl⟩
      simp only [Bool.and_eq_true, decide_eq_true_eq]
      exact ⟨⟨hreg, hext⟩, h⟩
  exact ⟨hiff, hiff.trans (supported_iff_spells (extension e.path))⟩

theorem load_paths_accepts_iff_supported_witness :
    (⟨"Input\\s\\z.Tiff".toList, true⟩ : directory_entry) ∈ mixed_case_tree ∧
    has_extension "Input\\s\\z.Tiff".toList = true ∧
    ("Input\\s\\z.Tiff".toList ∈ load_paths mixed_case_tree ↔
      ∃ t ∈ [".PNG".toList, ".JPG".toList, ".JPEG".toList, ".TIF".toList, ".TIFF".toList],
        spells_ignoring_case (extension "Input\\s\\z.Tiff".toList) t = true) :=
  ⟨by decide, by decide,
   (load_paths_accepts_iff_supported.1 mixed_case_tree ⟨"Input\\s\\z.Tiff".toList, true⟩
     (by decide) rfl (by decide)).2⟩

/-! ## Lemmas on the dispatcher -/

theorem erase_finished_of_not_mem (id : Nat) :
    ∀ (n : Nat) (l : List Nat), l.length ≤ n → id ∉ l → erase_finished id l = l := by
  intro n
  induction n with
  | zero =>
    intro l hl _
    have : l = [] := List.length_eq_zero.mp (Nat.le_zero.mp hl)
    subst this; rfl
  | succ n ih =>
    intro l hl hid
    match l, hl, hid with
    | [], _, _ => rfl
    | [t], _, hid =>
      have : t ≠ id := fun e => hid (by simp [e])
      simp [erase_finished, this]
    | t :: u :: rest, hl, hid =>
      have ht : t ≠ id := fun e => hid (by simp [e])
      have hr : id ∉ u :: rest := fun e => hid (List.mem_cons_of_mem _ e)
      have hlen : (u :: rest).length ≤ n := by simp at hl ⊢; omega
      simp only [erase_finished, ht, if_false]
      rw [ih (u :: rest) hlen hr]

theorem erase_finished_eq_erase (id : Nat) :
    ∀ (n : Nat) (l : List Nat), l.length ≤ n → l.Nodup → erase_finished id l = l.erase id := by
  intro n
  induction n with
  | zero =>
    intro l hl _
    have : l = [] := List.length_eq_zero.mp (Nat.le_zero.mp hl)
    subst this; rfl
  | succ n ih =>
    intro l hl hnd
    match l, hl, hnd with
    | [], _, _ => rfl
    | [t], _, _ =>
      by_cases ht : t = id
      · simp [erase_finished, ht]
      · simp [erase_finished, ht, List.erase_cons]
    | t :: u :: rest, hl, hnd =>
      by_cases ht : t = id
      · have hnot : id ∉ u :: rest := by
          rw [← ht]; exact (List.nodup_cons.mp hnd).1
        have hnot' : id ∉ rest := fun e => hnot (List.mem_cons_of_mem _ e)
        simp only [erase_finished, ht, if_true]
        rw [erase_finished_of_not_mem id rest.length rest (Nat.le_refl _) hnot']
        simp
      · have hlen : (u :: rest).length ≤ n := by simp at hl ⊢; omega
        simp only [erase_finished, ht, if_false]
        rw [ih (u :: rest) hlen (List.nodup_cons.mp hnd).2]
        exact (List.erase_cons_tail (by simpa using ht)).symm

theorem countP_range_congr (p q : Nat → Bool) (n : Nat) (h : ∀ i, i < n → p i = q i) :
    (List.range n).countP p = (List.range n).countP q := by
  induction n with
  | zero => rfl
  | succ n ih =>
    rw [List.range_succ, List.countP_append, List.countP_append,
      ih (fun i hi => h i (Nat.lt_succ_of_lt hi))]
    simp [List.countP_cons, h n (Nat.lt_succ_self n)]

theorem countP_range_flip (p q : Nat → Bool) (n id : Nat) (hid : id < n)
    (hne : ∀ i, i ≠ id → p i = q i) (hp : p id = false) (hq : q id = true) :
    (List.range n).countP q = (List.range n).countP p + 1 := by
  induction n with
  | zero => omega
  | succ n ih =>
    rw [List.range_succ, List.countP_append, List.countP_append]
    by_cases h : id = n
    · subst h
      rw [countP_range_congr q p id (fun i hi => (hne i (Nat.ne_of_lt hi)).symm)]
      simp [List.countP_cons, hp, hq]
    · have hlt : id < n := by omega
      rw [ih hlt]
      have : p n = q n := hne n (fun e => h e.symm)
      simp [List.countP_cons, this]
      omega

theorem map_path_set (ws : List Worker) (id : Nat) (path : Str) (p q : Phase)
    (h : ws[id]? = some ⟨path, p⟩) :
    (ws.set id ⟨path, q⟩).map Worker.path = ws.map Worker.path := by
  induction ws generalizing id with
  | nil => rfl
  | cons w ws ih =>
    cases id with
    | zero =>
      simp at h
      simp [h]
    | succ id =>
      simp at h
      simp [ih id h]

theorem phase_set (ws : List Worker) (id j : Nat) (path : Str) (p q : Phase)
    (h : ws[id]? = some ⟨path, p⟩) :
    ((ws.set id ⟨path, q⟩)[j]?).map Worker.phase =
      if j = id then some q else (ws[j]?).map Worker.phase := by
  have hlt : id < ws.length := by
    by_contra hc
    rw [List.getElem?_eq_none (by omega)] at h
    cases h
  rw [List.getElem?_set]
  by_cases e : id = j
  · subst e; simp [hlt]
  · have e' : ¬ j = id := fun x => e x.symm
    simp [e, e']

theorem recorded_count_flip (ok : Nat → Bool) (b : Bool) (ws : List Worker) (id : Nat)
    (path : Str) (h : ws[id]? = some ⟨path, Phase.converting⟩) :
    recorded_count ok b (ws.set id ⟨path, Phase.recorded⟩) =
      recorded_count ok b ws + (if ok id = b then 1 else 0) := by
  have hlt : id < ws.length := by
    by_contra hc
    rw [List.getElem?_eq_none (by omega)] at h
    cases h
  unfold recorded_count
  rw [List.length_set]
  by_cases hb : ok id = b
  · rw [if_pos hb]
    apply countP_range_flip _ _ _ id hlt
    · intro i hi
      rw [phase_set ws id i path _ _ h, if_neg hi]
    · simp [h]
    · rw [phase_set ws id id path _ _ h]
      simp [hb]
  · rw [if_neg hb]
    apply countP_range_congr
    intro i _
    by_cases hi : i = id
    · subst hi
      have hb' : (ok i == b) = false := by simpa using hb
      rw [hb', Bool.false_and, Bool.false_and]
    · rw [phase_set ws id i path _ _ h, if_neg hi]

theorem recorded_count_exit (ok : Nat → Bool) (b : Bool) (ws : List Worker) (id : Nat)
    (path : Str) (h : ws[id]? = some ⟨path, Phase.recorded⟩) :
    recorded_count ok b (ws.set id ⟨path, Phase.exited⟩) = recorded_count ok b ws := by
  unfold recorded_count
  rw [List.length_set]
  apply countP_range_congr
  intro i _
  rw [phase_set ws id i path _ _ h]
  by_cases hi : i = id
  · subst hi; simp [h]
  · rw [if_neg hi]

theorem recorded_count_launch (ok : Nat → Bool) (b : Bool) (ws : List Worker) (path : Str) :
    recorded_count ok b (ws ++ [⟨path, Phase.converting⟩]) = recorded_count ok b ws := by
  unfold recorded_count
  rw [List.length_append, List.length_singleton, List.range_succ, List.countP_append]
  have : (List.range ws.length).countP (fun i => (ok i == b) &&
      decide (((ws ++ [⟨path, Phase.converting⟩])[i]?).map Worker.phase ≠ some Phase.converting))
      = (List.range ws.length).countP (fun i => (ok i == b) &&
      decide ((ws[i]?).map Worker.phase ≠ some Phase.converting)) := by
    apply countP_range_congr
    intro i hi
    rw [List.getElem?_append_left hi]
  rw [this]
  simp [List.countP_cons]

theorem recorded_count_all_exited (ok : Nat → Bool) (b : Bool) (ws : List Worker)
    (h : ∀ i, i < ws.length → (ws[i]?).map Worker.phase = some Phase.exited) :
    recorded_count ok b ws = (List.range ws.length).countP (fun i => ok i == b) := by
  unfold recorded_count
  apply countP_range_congr
  intro i hi
  rw [h i hi]
  simp

theorem inv_initial (limit : Nat) (ok : Nat → Bool) (paths : List Str) :
    Inv limit ok paths (initial paths) := by
  constructor <;> simp [initial, recorded_count, State.phase_of]

theorem getElem?_lt_of_some {α : Type} (l : List α) (i : Nat) (a : α) (h : l[i]? = some a) :
    i < l.length := by
  by_contra hc
  rw [List.getElem?_eq_none (by omega)] at h
  cases h

/-- A thread that updates its counter keeps the invariant. -/
theorem inv_record (limit : Nat) (ok : Nat → Bool) (paths : List Str) (s : State)
    (id : Nat) (path : Str) (c e : Nat)
    (hw : s.workers[id]? = some ⟨path, Phase.converting⟩)
    (hc : c = s.completed_count + (if ok id = true then 1 else 0))
    (he : e = s.error_count + (if ok id = false then 1 else 0))
    (h : Inv limit ok paths s) :
    Inv limit ok paths { s with workers := s.workers.set id ⟨path, Phase.recorded⟩,
                                completed_count := c, error_count := e } := by
  have hph : ∀ j, State.phase_of
      { s with workers := s.workers.set id ⟨path, Phase.recorded⟩,
               completed_count := c, error_count := e } j =
      if j = id then some Phase.recorded else s.phase_of j := by
    intro j
    exact phase_set s.workers id j path _ _ hw
  have hold : s.phase_of id = some Phase.converting := by simp [State.phase_of, hw]
  have hmono : ∀ j, s.phase_of j = some Phase.exited →
      State.phase_of
        { s with workers := s.workers.set id ⟨path, Phase.recorded⟩,
                 completed_count := c, error_count := e } j = some Phase.exited := by
    intro j hj
    rw [hph j]
    by_cases hji : j = id
    · subst hji; rw [hold] at hj; cases hj
    · rw [if_neg hji]; exact hj
  constructor
  · exact h.threads_nodup
  · intro t ht
    simp only [List.length_set]
    exact h.threads_lt t ht
  · exact h.queue_nodup
  · exact h.queue_sub
  · intro t ht
    rw [hph t]
    by_cases hti : t = id
    · subst hti
      have := h.queue_exited t ht
      rw [hold] at this
      simp only [if_true]
      constructor
      · intro hq; have := this.mp hq; cases this
      · intro hq; cases hq
    · rw [if_neg hti]; exact h.queue_exited t ht
  · intro i hi hnot
    simp only [List.length_set] at hi
    exact hmono i (h.detached_exited i hi hnot)
  · exact h.size_le
  · exact h.at_launch
  · intro rest hr
    obtain ⟨h1, h0, h2⟩ := h.at_join rest hr
    refine ⟨h1, h0, fun t ht => ?_⟩
    rcases h2 t ht with x | x
    · exact Or.inl x
    · exact Or.inr (hmono t x)
  · intro hd
    obtain ⟨h1, h2⟩ := h.at_done hd
    exact ⟨h1, fun t ht => hmono t (h2 t ht)⟩
  · show (s.workers.set id ⟨path, Phase.recorded⟩).map Worker.path ++ s.pending = paths
    rw [map_path_set s.workers id path _ _ hw]
    exact h.launched
  · show c = recorded_count ok true (s.workers.set id ⟨path, Phase.recorded⟩)
    rw [recorded_count_flip ok true s.workers id path hw, hc, h.completed]
  · show e = recorded_count ok false (s.workers.set id ⟨path, Phase.recorded⟩)
    rw [recorded_count_flip ok false s.workers id path hw, he, h.errors]

/-- A thread that pushes its id keeps the invariant. -/
theorem inv_push (limit : Nat) (ok : Nat → Bool) (paths : List Str) (s : State)
    (id : Nat) (path : Str)
    (hw : s.workers[id]? = some ⟨path, Phase.recorded⟩)
    (h : Inv limit ok paths s) :
    Inv limit ok paths { s with workers := s.workers.set id ⟨path, Phase.exited⟩,
                                finished_thread_ids := s.finished_thread_ids ++ [id] } := by
  have hph : ∀ j, State.phase_of
      { s with workers := s.workers.set id ⟨path, Phase.exited⟩,
               finished_thread_ids := s.finished_thread_ids ++ [id] } j =
      if j = id then some Phase.exited else s.phase_of j := by
    intro j
    exact phase_set s.workers id j path _ _ hw
  have hold : s.phase_of id = some Phase.recorded := by simp [State.phase_of, hw]
  have hlt : id < s.workers.length := getElem?_lt_of_some _ _ _ hw
  have hmem : id ∈ s.threads := by
    by_contra hc
    have := h.detached_exited id hlt hc
    rw [hold] at this; cases this
  have hnq : id ∉ s.finished_thread_ids := by
    intro hq
    have := (h.queue_exited id hmem).mp hq
    rw [hold] at this; cases this
  have hmono : ∀ j, s.phase_of j = some Phase.exited →
      State.phase_of
        { s with workers := s.workers.set id ⟨path, Phase.exited⟩,
                 finished_thread_ids := s.finished_thread_ids ++ [id] } j = some Phase.exited := by
    intro j hj
    rw [hph j]
    by_cases hji : j = id
    · rw [if_pos hji]
    · rw [if_neg hji]; exact hj
  constructor
  · exact h.threads_nodup
  · intro t ht
    simp only [List.length_set]
    exact h.threads_lt t ht
  · show (s.finished_thread_ids ++ [id]).Nodup
    rw [List.nodup_append]
    refine ⟨h.queue_nodup, List.nodup_singleton id, ?_⟩
    intro a ha hb
    have : a = id := by simpa using hb
    subst this
    exact hnq ha
  · intro t ht
    have ht' : t ∈ s.finished_thread_ids ++ [id] := ht
    rcases List.mem_append.mp ht' with x | x
    · exact h.queue_sub t x
    · have : t = id := by simpa using x
      subst this; exact hmem
  · intro t ht
    rw [hph t]
    show t ∈ s.finished_thread_ids ++ [id] ↔ _
    by_cases hti : t = id
    · subst hti; simp
    · rw [if_neg hti, List.mem_append]
      have := h.queue_exited t ht
      simp only [List.mem_singleton, hti, or_false]
      exact this
  · intro i hi hnot
    simp only [List.length_set] at hi
    exact hmono i (h.detached_exited i hi hnot)
  · exact h.size_le
  · exact h.at_launch
  · intro rest hr
    obtain ⟨h1, h0, h2⟩ := h.at_join rest hr
    refine ⟨h1, h0, fun t ht => ?_⟩
    rcases h2 t ht with x | x
    · exact Or.inl x
    · exact Or.inr (hmono t x)
  · intro hd
    obtain ⟨h1, h2⟩ := h.at_done hd
    exact ⟨h1, fun t ht => hmono t (h2 t ht)⟩
  · show (s.workers.set id ⟨path, Phase.exited⟩).map Worker.path ++ s.pending = paths
    rw [map_path_set s.workers id path _ _ hw]
    exact h.launched
  · show s.completed_count = recorded_count ok true (s.workers.set id ⟨path, Phase.exited⟩)
    rw [recorded_count_exit ok true s.workers id path hw]; exact h.completed
  · show s.error_count = recorded_count ok false (s.workers.set id ⟨path, Phase.exited⟩)
    rw [recorded_count_exit ok false s.workers id path hw]; exact h.errors

theorem inv_thread_function (limit : Nat) (ok : Nat → Bool) (paths : List Str) (s : State)
    (id : Nat) (h : Inv limit ok paths s) : Inv limit ok paths (thread_function ok id s) := by
  unfold thread_function
  split
  · next path hw =>
    by_cases hok : ok id = true
    · simp only [hok, if_true]
      exact inv_record limit ok paths s id path _ _ hw (by simp [hok]) (by simp [hok]) h
    · simp only [hok, thread_error]
      exact inv_record limit ok paths s id path _ _ hw (by simp [hok]) (by simp [hok]) h
  · next path hw => exact inv_push limit ok paths s id path hw h
  · exact h

/-- Reclaiming the thread whose id heads the queue keeps the invariant. -/
theorem inv_reclaim (limit : Nat) (ok : Nat → Bool) (paths : List Str) (s : State)
    (id : Nat) (queue : List Nat) (hq : s.finished_thread_ids = id :: queue)
    (hp : s.pending ≠ []) (h : Inv limit ok paths s) :
    Inv limit ok paths
      { s with finished_thread_ids := queue,
               threads := erase_finished id s.threads, pc := Pc.launch } := by
  have he : erase_finished id s.threads = s.threads.erase id :=
    erase_finished_eq_erase id _ _ (Nat.le_refl _) h.threads_nodup
  have hidq : id ∈ s.finished_thread_ids := by rw [hq]; simp
  have hidt : id ∈ s.threads := h.queue_sub id hidq
  have hnd : (id :: queue).Nodup := hq ▸ h.queue_nodup
  have hmem : ∀ t, t ∈ s.threads.erase id ↔ t ≠ id ∧ t ∈ s.threads :=
    fun t => h.threads_nodup.mem_erase_iff
  rw [he]
  constructor
  · exact h.threads_nodup.erase id
  · intro t ht
    exact h.threads_lt t ((hmem t).mp ht).2
  · exact (List.nodup_cons.mp hnd).2
  · intro t ht
    refine (hmem t).mpr ⟨?_, h.queue_sub t (by rw [hq]; exact List.mem_cons_of_mem _ ht)⟩
    intro e
    subst e
    exact (List.nodup_cons.mp hnd).1 ht
  · intro t ht
    obtain ⟨hne, htt⟩ := (hmem t).mp ht
    have := h.queue_exited t htt
    rw [hq] at this
    simp only [List.mem_cons, hne, false_or] at this
    exact this
  · intro i hi hnot
    by_cases hid : i = id
    · subst hid
      exact (h.queue_exited i hidt).mp hidq
    · exact h.detached_exited i hi (fun x => hnot ((hmem i).mpr ⟨hid, x⟩))
  · show (s.threads.erase id).length ≤ limit
    rw [List.length_erase_of_mem hidt]
    have := h.size_le
    omega
  · intro _
    refine ⟨?_, hp⟩
    show (s.threads.erase id).length < limit
    rw [List.length_erase_of_mem hidt]
    have := h.size_le
    have := List.length_pos_of_mem hidt
    omega
  · intro rest hr; cases hr
  · intro hr; cases hr
  · exact h.launched
  · exact h.completed
  · exact h.errors

/-- Starting a thread on the next path keeps the invariant. -/
theorem inv_launch (limit : Nat) (ok : Nat → Bool) (paths : List Str) (s : State)
    (path : Str) (rest : List Str) (hp : s.pending = path :: rest) (hpc : s.pc = Pc.launch)
    (h : Inv limit ok paths s) :
    Inv limit ok paths
      { s with pending := rest, threads := s.threads ++ [s.workers.length],
               workers := s.workers ++ [⟨path, Phase.converting⟩], pc := Pc.loop_head } := by
  have hph : ∀ j, j < s.workers.length → State.phase_of
      { s with pending := rest, threads := s.threads ++ [s.workers.length],
               workers := s.workers ++ [Worker.mk path Phase.converting], pc := Pc.loop_head } j =
      s.phase_of j := by
    intro j hj
    show ((s.workers ++ [Worker.mk path Phase.converting])[j]?).map Worker.phase = _
    rw [List.getElem?_append_left hj]
    rfl
  have hnew : State.phase_of
      { s with pending := rest, threads := s.threads ++ [s.workers.length],
               workers := s.workers ++ [Worker.mk path Phase.converting], pc := Pc.loop_head }
      s.workers.length = some Phase.converting := by
    show ((s.workers ++ [Worker.mk path Phase.converting])[s.workers.length]?).map Worker.phase = _
    simp
  have hfresh : s.workers.length ∉ s.threads := fun x =>
    Nat.lt_irrefl _ (h.threads_lt _ x)
  constructor
  · show (s.threads ++ [s.workers.length]).Nodup
    rw [List.nodup_append]
    refine ⟨h.threads_nodup, List.nodup_singleton _, ?_⟩
    intro a ha hb
    have : a = s.workers.length := by simpa using hb
    subst this
    exact hfresh ha
  · intro t ht
    have ht' : t ∈ s.threads ++ [s.workers.length] := ht
    show t < (s.workers ++ [Worker.mk path Phase.converting]).length
    rw [List.length_append, List.length_singleton]
    rcases List.mem_append.mp ht' with x | x
    · exact Nat.lt_succ_of_lt (h.threads_lt t x)
    · have : t = s.workers.length := by simpa using x
      omega
  · exact h.queue_nodup
  · intro t ht
    show t ∈ s.threads ++ [s.workers.length]
    exact List.mem_append_left _ (h.queue_sub t ht)
  · intro t ht
    have ht' : t ∈ s.threads ++ [s.workers.length] := ht
    show t ∈ s.finished_thread_ids ↔ _
    rcases List.mem_append.mp ht' with x | x
    · rw [hph t (h.threads_lt t x)]
      exact h.queue_exited t x
    · have : t = s.workers.length := by simpa using x
      subst this
      rw [hnew]
      constructor
      · intro hq; exact absurd (h.queue_sub _ hq) hfresh
      · intro hq; cases hq
  · intro i hi hnot
    have hi' : i < (s.workers ++ [Worker.mk path Phase.converting]).length := hi
    have hnot' : i ∉ s.threads ++ [s.workers.length] := hnot
    rw [List.length_append, List.length_singleton] at hi'
    rw [List.mem_append, not_or] at hnot'
    have hne : i ≠ s.workers.length := by simpa using hnot'.2
    have hlt : i < s.workers.length := by omega
    rw [hph i hlt]
    exact h.detached_exited i hlt hnot'.1
  · show (s.threads ++ [s.workers.length]).length ≤ limit
    rw [List.length_append, List.length_singleton]
    have := (h.at_launch hpc).1
    omega
  · intro hr; cases hr
  · intro r hr; cases hr
  · intro hr; cases hr
  · show (s.workers ++ [Worker.mk path Phase.converting]).map Worker.path ++ rest = paths
    rw [← h.launched, hp]
    simp
  · show s.completed_count = recorded_count ok true (s.workers ++ [Worker.mk path Phase.converting])
    rw [recorded_count_launch]; exact h.completed
  · show s.error_count = recorded_count ok false (s.workers ++ [Worker.mk path Phase.converting])
    rw [recorded_count_launch]; exact h.errors

/-- A change of the control point alone keeps the invariant, once the
conditions tied to the new control point hold. -/
theorem inv_set_pc (limit : Nat) (ok : Nat → Bool) (paths : List Str) (s : State) (pc : Pc)
    (h : Inv limit ok paths s)
    (h1 : pc = Pc.launch → s.threads.length < limit ∧ s.pending ≠ [])
    (h2 : ∀ rest, pc = Pc.join rest →
      s.pending = [] ∧ (∀ t ∈ rest, t ∈ s.threads) ∧
        ∀ t ∈ s.threads, t ∈ rest ∨ s.phase_of t = some Phase.exited)
    (h3 : pc = Pc.done → s.pending = [] ∧ ∀ t ∈ s.threads, s.phase_of t = some Phase.exited) :
    Inv limit ok paths { s with pc := pc } :=
  { threads_nodup := h.threads_nodup, threads_lt := h.threads_lt,
    queue_nodup := h.queue_nodup, queue_sub := h.queue_sub,
    queue_exited := h.queue_exited, detached_exited := h.detached_exited,
    size_le := h.size_le, at_launch := h1, at_join := h2, at_done := h3,
    launched := h.launched, completed := h.completed, errors := h.errors }

theorem inv_main_step (limit : Nat) (ok : Nat → Bool) (paths : List Str) (s : State)
    (h : Inv limit ok paths s) : Inv limit ok paths (main_step limit s) := by
  unfold main_step
  split
  · next hpc =>
    split
    · next hp =>
      apply inv_set_pc _ _ _ _ _ h
      · intro x; cases x
      · intro rest hr
        injection hr with hr
        subst hr
        exact ⟨hp, fun t ht => ht, fun t ht => Or.inl ht⟩
      · intro x; cases x
    · next p ps hp =>
      split
      · split
        · exact h
        · next id queue hq =>
          exact inv_reclaim limit ok paths s id queue hq (by rw [hp]; simp) h
      · next hlt =>
        apply inv_set_pc _ _ _ _ _ h
        · intro _
          exact ⟨by omega, by rw [hp]; simp⟩
        · intro rest x; cases x
        · intro x; cases x
  · next hpc =>
    split
    · exact h
    · next path rest hp => exact inv_launch limit ok paths s path rest hp hpc h
  · next hpc =>
    apply inv_set_pc _ _ _ _ _ h
    · intro x; cases x
    · intro rest x; cases x
    · intro _
      obtain ⟨h1, _, h2⟩ := h.at_join [] hpc
      refine ⟨h1, fun t ht => ?_⟩
      rcases h2 t ht with x | x
      · cases x
      · exact x
  · next t rest hpc =>
    split
    · next hex =>
      apply inv_set_pc _ _ _ _ _ h
      · intro x; cases x
      · intro r hr
        injection hr with hr
        subst hr
        obtain ⟨h1, h0, h2⟩ := h.at_join (t :: rest) hpc
        refine ⟨h1, fun u hu => h0 u (List.mem_cons_of_mem _ hu), fun u hu => ?_⟩
        rcases h2 u hu with x | x
        · rcases List.mem_cons.mp x with y | y
          · subst y; exact Or.inr hex
          · exact Or.inl y
        · exact Or.inr x
      · intro x; cases x
    · exact h
  · exact h

theorem inv_step (limit : Nat) (ok : Nat → Bool) (paths : List Str) (s : State) (e : Event)
    (h : Inv limit ok paths s) : Inv limit ok paths (step limit ok s e) := by
  cases e with
  | main => exact inv_main_step limit ok paths s h
  | worker id => exact inv_thread_function limit ok paths s id h

theorem inv_run_from (limit : Nat) (ok : Nat → Bool) (paths : List Str)
    (schedule : List Event) :
    ∀ s, Inv limit ok paths s → Inv limit ok paths (run limit ok s schedule) := by
  induction schedule with
  | nil => intro s h; exact h
  | cons e es ih =>
    intro s h
    exact ih _ (inv_step limit ok paths s e h)

theorem inv_run (limit : Nat) (ok : Nat → Bool) (paths : List Str) (schedule : List Event) :
    Inv limit ok paths (run limit ok (initial paths) schedule) :=
  inv_run_from limit ok paths schedule _ (inv_initial limit ok paths)

/-! ## The dispatcher returns -/

theorem run_append (limit : Nat) (ok : Nat → Bool) (s : State) (a b : List Event) :
    run limit ok s (a ++ b) = run limit ok (run limit ok s a) b := by
  simp [run, List.foldl_append]

theorem thread_function_frame (ok : Nat → Bool) (id : Nat) (s : State) :
    (thread_function ok id s).pc = s.pc ∧ (thread_function ok id s).pending = s.pending ∧
    (thread_function ok id s).threads = s.threads ∧
    (thread_function ok id s).workers.length = s.workers.length := by
  unfold thread_function
  split
  · by_cases hok : ok id = true <;> simp [hok, thread_error]
  · simp
  · simp

theorem thread_function_phase (ok : Nat → Bool) (id j : Nat) (s : State) :
    (thread_function ok id s).phase_of j =
      if j = id then
        (match s.phase_of id with
         | some Phase.converting => some Phase.recorded
         | some Phase.recorded => some Phase.exited
         | x => x)
      else s.phase_of j := by
  unfold thread_function
  split
  · next path hw =>
    have hold : s.phase_of id = some Phase.converting := by simp [State.phase_of, hw]
    by_cases hok : ok id = true
    · simp only [hok, if_true, hold]
      exact phase_set s.workers id j path _ _ hw
    · simp only [hok, thread_error, hold]
      exact phase_set s.workers id j path _ _ hw
  · next path hw =>
    have hold : s.phase_of id = some Phase.recorded := by simp [State.phase_of, hw]
    simp only [hold]
    exact phase_set s.workers id j path _ _ hw
  · next h1 h2 =>
    by_cases hj : j = id
    · subst hj
      rw [if_pos rfl]
      split
      · next hc =>
        exfalso
        simp only [State.phase_of, Option.map_eq_some'] at hc
        obtain ⟨w, hw, hp⟩ := hc
        cases w with
        | mk path phase => simp only at hp; subst hp; exact h1 path hw
      · next hc =>
        exfalso
        simp only [State.phase_of, Option.map_eq_some'] at hc
        obtain ⟨w, hw, hp⟩ := hc
        cases w with
        | mk path phase => simp only at hp; subst hp; exact h2 path hw
      · rfl
    · rw [if_neg hj]

theorem phase_of_lt (s : State) (i : Nat) (h : i < s.workers.length) :
    s.phase_of i = some Phase.converting ∨ s.phase_of i = some Phase.recorded ∨
      s.phase_of i = some Phase.exited := by
  unfold State.phase_of
  rw [List.getElem?_eq_getElem h]
  cases hp : (s.workers[i]).phase <;> simp [hp]

theorem thread_function_twice (ok : Nat → Bool) (id : Nat) (s : State)
    (h : id < s.workers.length) :
    (thread_function ok id (thread_function ok id s)).phase_of id = some Phase.exited := by
  rw [thread_function_phase, if_pos rfl, thread_function_phase, if_pos rfl]
  rcases phase_of_lt s id h with x | x | x <;> simp [x]

theorem thread_function_exited (ok : Nat → Bool) (id j : Nat) (s : State)
    (h : s.phase_of j = some Phase.exited) :
    (thread_function ok id s).phase_of j = some Phase.exited := by
  rw [thread_function_phase]
  by_cases hj : j = id
  · subst hj; simp [h]
  · rw [if_neg hj]; exact h

theorem drain_spec (limit : Nat) (ok : Nat → Bool) (ids : List Nat) :
    ∀ s, (run limit ok s (drain ids)).pc = s.pc ∧
      (run limit ok s (drain ids)).pending = s.pending ∧
      (run limit ok s (drain ids)).threads = s.threads ∧
      (run limit ok s (drain ids)).workers.length = s.workers.length ∧
      (∀ j, s.phase_of j = some Phase.exited →
        (run limit ok s (drain ids)).phase_of j = some Phase.exited) ∧
      (∀ j ∈ ids, j < s.workers.length →
        (run limit ok s (drain ids)).phase_of j = some Phase.exited) := by
  induction ids with
  | nil =>
    intro s
    simp [drain, run]
  | cons i is ih =>
    intro s
    have hrun : run limit ok s (drain (i :: is)) =
        run limit ok (thread_function ok i (thread_function ok i s)) (drain is) := by
      simp [drain, run, step]
    rw [hrun]
    obtain ⟨a1, a2, a3, a4⟩ := thread_function_frame ok i s
    obtain ⟨b1, b2, b3, b4⟩ := thread_function_frame ok i (thread_function ok i s)
    obtain ⟨c1, c2, c3, c4, c5, c6⟩ := ih (thread_function ok i (thread_function ok i s))
    refine ⟨by rw [c1, b1, a1], by rw [c2, b2, a2], by rw [c3, b3, a3], by rw [c4, b4, a4],
      ?_, ?_⟩
    · intro j hj
      exact c5 j (thread_function_exited ok i j _ (thread_function_exited ok i j _ hj))
    · intro j hj hlt
      rcases List.mem_cons.mp hj with x | x
      · subst x
        exact c5 j (thread_function_twice ok j s hlt)
      · exact c6 j x (by rw [b4, a4]; exact hlt)

theorem drain_all (limit : Nat) (ok : Nat → Bool) (s : State) :
    AllExited (run limit ok s (drain (List.range s.workers.length))) := by
  obtain ⟨_, _, _, c4, _, c6⟩ := drain_spec limit ok (List.range s.workers.length) s
  intro i hi
  rw [c4] at hi
  exact c6 i (List.mem_range.mpr hi) hi

theorem finish_join (limit : Nat) (ok : Nat → Bool) (rest : List Nat) :
    ∀ s, s.pc = Pc.join rest → (∀ t ∈ rest, s.phase_of t = some Phase.exited) →
      ∃ schedule, (run limit ok s schedule).pc = Pc.done := by
  induction rest with
  | nil =>
    intro s hpc _
    refine ⟨[Event.main], ?_⟩
    simp [run, step, main_step, hpc]
  | cons t rest ih =>
    intro s hpc hex
    have ht := hex t (by simp)
    have hstep : main_step limit s = { s with pc := Pc.join rest } := by
      simp [main_step, hpc, ht]
    obtain ⟨schedule, hs⟩ := ih { s with pc := Pc.join rest } rfl
      (fun u hu => hex u (List.mem_cons_of_mem _ hu))
    refine ⟨Event.main :: schedule, ?_⟩
    have : run limit ok s (Event.main :: schedule) =
        run limit ok (main_step limit s) schedule := by simp [run, step]
    rw [this, hstep]
    exact hs

theorem returns_from_join (limit : Nat) (ok : Nat → Bool) (paths : List Str) (s : State)
    (rest : List Nat) (h : Inv limit ok paths s) (hpc : s.pc = Pc.join rest) :
    ∃ schedule, (run limit ok s schedule).pc = Pc.done := by
  obtain ⟨c1, _, c3, c4, _, _⟩ := drain_spec limit ok (List.range s.workers.length) s
  have hall := drain_all limit ok s
  have hinv := inv_run_from limit ok paths (drain (List.range s.workers.length)) s h
  obtain ⟨schedule, hs⟩ := finish_join limit ok rest _ (c1.trans hpc) (by
    intro t ht
    apply hall
    rw [c4]
    exact h.threads_lt t ((h.at_join rest hpc).2.1 t ht))
  refine ⟨drain (List.range s.workers.length) ++ schedule, ?_⟩
  rw [run_append]
  exact hs

/-- With a limit of at least one, the dispatcher at the loop head with a path
left reaches line 186 once the running threads have finished. -/
theorem reaches_launch (limit : Nat) (ok : Nat → Bool) (paths : List Str) (s : State)
    (hl : 1 ≤ limit) (h : Inv limit ok paths s) (hpc : s.pc = Pc.loop_head)
    (hp : s.pending ≠ []) :
    ∃ schedule, (run limit ok s schedule).pc = Pc.launch ∧
      (run limit ok s schedule).pending = s.pending := by
  obtain ⟨c1, c2, c3, c4, _, _⟩ := drain_spec limit ok (List.range s.workers.length) s
  have hall := drain_all limit ok s
  have hinv := inv_run_from limit ok paths (drain (List.range s.workers.length)) s h
  refine ⟨drain (List.range s.workers.length) ++ [Event.main], ?_⟩
  rw [run_append]
  generalize run limit ok s (drain (List.range s.workers.length)) = s₁ at c1 c2 c3 c4 hall hinv
  have hpc₁ : s₁.pc = Pc.loop_head := c1.trans hpc
  obtain ⟨p, ps, hps⟩ := List.exists_cons_of_ne_nil hp
  have hp₁ : s₁.pending = p :: ps := c2.trans hps
  have hrun : run limit ok s₁ [Event.main] = main_step limit s₁ := by simp [run, step]
  rw [hrun, ← c2]
  by_cases hfull : s₁.threads.length ≥ limit
  · have hne : s₁.threads ≠ [] := by
      intro e
      rw [e] at hfull
      simp at hfull
      omega
    obtain ⟨t, ts, hts⟩ := List.exists_cons_of_ne_nil hne
    have ht : t ∈ s₁.threads := by rw [hts]; simp
    have hq : t ∈ s₁.finished_thread_ids :=
      (hinv.queue_exited t ht).mpr (hall t (hinv.threads_lt t ht))
    obtain ⟨id, queue, hidq⟩ := List.exists_cons_of_ne_nil (List.ne_nil_of_mem hq)
    simp [main_step, hpc₁, hp₁, hfull, hidq]
  · simp [main_step, hpc₁, hp₁, hfull]

/-- With a limit of at least one, some schedule takes the dispatcher from any
state of the invariant to the end of `main`. -/
theorem returns_from (limit : Nat) (ok : Nat → Bool) (paths : List Str) (hl : 1 ≤ limit) :
    ∀ (n : Nat) (s : State), Inv limit ok paths s → s.pending.length = n →
      ∃ schedule, (run limit ok s schedule).pc = Pc.done := by
  have hlaunch : ∀ (n : Nat),
      (∀ s, Inv limit ok paths s → s.pending.length = n →
        ∃ schedule, (run limit ok s schedule).pc = Pc.done) →
      ∀ s, Inv limit ok paths s → s.pc = Pc.launch → s.pending.length = n + 1 →
        ∃ schedule, (run limit ok s schedule).pc = Pc.done := by
    intro n ih s h hpc hn
    match hp : s.pending, hn with
    | [], hn' => simp at hn'
    | path :: rest, hn' =>
      have hstep : (main_step limit s).pending = rest := by simp [main_step, hpc, hp]
      obtain ⟨schedule, hs⟩ := ih (main_step limit s) (inv_main_step limit ok paths s h)
        (by rw [hstep]; simpa using hn')
      refine ⟨Event.main :: schedule, ?_⟩
      have : run limit ok s (Event.main :: schedule) =
          run limit ok (main_step limit s) schedule := by simp [run, step]
      rw [this]; exact hs
  intro n
  induction n with
  | zero =>
    intro s h hn
    have hp : s.pending = [] := List.length_eq_zero.mp hn
    cases hpc : s.pc with
    | loop_head =>
      have hstep : (main_step limit s).pc = Pc.join s.threads := by simp [main_step, hpc, hp]
      obtain ⟨schedule, hs⟩ := returns_from_join limit ok paths (main_step limit s) s.threads
        (inv_main_step limit ok paths s h) hstep
      refine ⟨Event.main :: schedule, ?_⟩
      have : run limit ok s (Event.main :: schedule) =
          run limit ok (main_step limit s) schedule := by simp [run, step]
      rw [this]; exact hs
    | launch => exact absurd hp (h.at_launch hpc).2
    | join rest => exact returns_from_join limit ok paths s rest h hpc
    | done => exact ⟨[], by simp [run, hpc]⟩
  | succ n ih =>
    intro s h hn
    cases hpc : s.pc with
    | loop_head =>
      have hp : s.pending ≠ [] := by
        intro e; rw [e] at hn; simp at hn
      obtain ⟨a, ha1, ha2⟩ := reaches_launch limit ok paths s hl h hpc hp
      obtain ⟨b, hb⟩ := hlaunch n ih (run limit ok s a) (inv_run_from limit ok paths a s h) ha1
        (by rw [ha2]; exact hn)
      refine ⟨a ++ b, ?_⟩
      rw [run_append]; exact hb
    | launch => exact hlaunch n ih s h hpc hn
    | join rest =>
      have := (h.at_join rest hpc).1
      rw [this] at hn; simp at hn
    | done =>
      have := (h.at_done hpc).1
      rw [this] at hn; simp at hn

/-- With a limit of at least one, every run can be continued to the end of
`main`: no schedule leads the dispatcher into a state it cannot leave. -/
theorem returns_after (limit : Nat) (ok : Nat → Bool) (paths : List Str) (hl : 1 ≤ limit)
    (before : List Event) :
    ∃ schedule, (run limit ok (initial paths) (before ++ schedule)).pc = Pc.done := by
  obtain ⟨schedule, hs⟩ := returns_from limit ok paths hl _ _
    (inv_run limit ok paths before) rfl
  exact ⟨schedule, by rw [run_append]; exact hs⟩

/-- At the end of `main` every path has been handed to a thread and every
thread has pushed its id. -/
theorem done_all_exited (limit : Nat) (ok : Nat → Bool) (paths : List Str) (s : State)
    (h : Inv limit ok paths s) (hpc : s.pc = Pc.done) :
    s.workers.map Worker.path = paths ∧ s.workers.length = paths.length ∧ AllExited s := by
  obtain ⟨hp, hex⟩ := h.at_done hpc
  have hl := h.launched
  rw [hp, List.append_nil] at hl
  refine ⟨hl, ?_, ?_⟩
  · rw [← hl, List.length_map]
  · intro i hi
    by_cases ht : i ∈ s.threads
    · exact hex i ht
    · exact h.detached_exited i hi ht

theorem done_counts (limit : Nat) (ok : Nat → Bool) (paths : List Str) (s : State)
    (h : Inv limit ok paths s) (hpc : s.pc = Pc.done) :
    s.completed_count = succeeded ok paths.length ∧ s.error_count = failed ok paths.length := by
  obtain ⟨_, hlen, hall⟩ := done_all_exited limit ok paths s h hpc
  constructor
  · rw [h.completed, recorded_count_all_exited ok true s.workers hall, hlen]
    unfold succeeded
    apply countP_range_congr
    intro i _
    cases ok i <;> rfl
  · rw [h.errors, recorded_count_all_exited ok false s.workers hall, hlen]
    unfold failed
    apply countP_range_congr
    intro i _
    cases ok i <;> rfl

theorem succeeded_add_failed (ok : Nat → Bool) (n : Nat) :
    succeeded ok n + failed ok n = n := by
  unfold succeeded failed
  induction n with
  | zero => rfl
  | succ n ih =>
    rw [List.range_succ, List.countP_append, List.countP_append]
    cases h : ok n <;> simp [List.countP_cons, h] <;> omega

theorem thread_function_counters (ok : Nat → Bool) (id : Nat) (s : State) :
    (thread_function ok id s).completed_count =
      s.completed_count +
        (if s.phase_of id = some Phase.converting ∧ ok id = true then 1 else 0) ∧
    (thread_function ok id s).error_count =
      s.error_count +
        (if s.phase_of id = some Phase.converting ∧ ok id = false then 1 else 0) := by
  unfold thread_function
  split
  · next path hw =>
    have hold : s.phase_of id = some Phase.converting := by simp [State.phase_of, hw]
    by_cases hok : ok id = true <;> simp [hok, hold, thread_error]
  · next path hw =>
    have hold : s.phase_of id = some Phase.recorded := by simp [State.phase_of, hw]
    simp [hold]
  · next h1 h2 =>
    have hold : s.phase_of id ≠ some Phase.converting := by
      intro hc
      simp only [State.phase_of, Option.map_eq_some'] at hc
      obtain ⟨w, hw, hp⟩ := hc
      cases w with
      | mk path phase => simp only at hp; subst hp; exact h1 path hw
    simp [hold]

theorem stuck_without_threads (ok : Nat → Bool) (path : Str) (rest : List Str)
    (schedule : List Event) :
    run 0 ok (initial (path :: rest)) schedule = initial (path :: rest) := by
  induction schedule with
  | nil => rfl
  | cons e es ih =>
    have hstep : step 0 ok (initial (path :: rest)) e = initial (path :: rest) := by
      cases e with
      | main => simp [step, main_step, initial]
      | worker id => simp [step, thread_function, initial]
    show run 0 ok (step 0 ok (initial (path :: rest)) e) es = _
    rw [hstep]; exact ih

/-! ## The claims on the dispatcher -/

/-- C1, as the code has it: under every limit of at least one and every
assignment of outcomes the dispatcher can always be run to the end of `main`,
and whenever it has returned `completed_count` is the number of jobs minus
the number of failed jobs and `error_count` is the number of failed jobs: a
worker increments `completed_count` once when its conversion succeeds and
leaves it unchanged when its conversion fails. -/
theorem completed_count_excludes_failures (paths : List Str) (limit : Nat) (ok : Nat → Bool)
    (hl : 1 ≤ limit) :
    (∀ before, ∃ schedule,
      (run limit ok (initial paths) (before ++ schedule)).pc = Pc.done) ∧
    (∀ schedule, (run limit ok (initial paths) schedule).pc = Pc.done →
      (run limit ok (initial paths) schedule).completed_count =
        paths.length - failed ok paths.length ∧
      (run limit ok (initial paths) schedule).error_count = failed ok paths.length) ∧
    (∀ s id, s.phase_of id = some Phase.converting → ok id = false →
      (thread_function ok id s).completed_count = s.completed_count) := by
  refine ⟨fun before => returns_after limit ok paths hl before, ?_, ?_⟩
  · intro schedule hpc
    obtain ⟨h1, h2⟩ := done_counts limit ok paths _ (inv_run limit ok paths schedule) hpc
    have := succeeded_add_failed ok paths.length
    exact ⟨by omega, h2⟩
  · intro s id hph hok
    rw [(thread_function_counters ok id s).1]
    simp [hok]

theorem completed_count_excludes_failures_witness :
    1 ≤ 2 ∧
    (run 2 five_ok (initial five_paths) five_schedule).completed_count =
      five_paths.length - failed five_ok five_paths.length ∧
    (run 2 five_ok (initial five_paths) five_schedule).error_count =
      failed five_ok five_paths.length :=
  ⟨by decide,
   (completed_count_excludes_failures five_paths 2 five_ok (by decide)).2.1
     five_schedule (by rfl)⟩

/-- C1 fails as stated: five jobs run two at a time, the launch of the fourth
failing, end with `completed_count = 4`, not 5, and `error_count = 1`. -/
theorem five_jobs_one_failure :
    five_paths.length = 5 ∧ failed five_ok 5 = 1 ∧
    (run 2 five_ok (initial five_paths) five_schedule).pc = Pc.done ∧
    (run 2 five_ok (initial five_paths) five_schedule).completed_count = 4 ∧
    (run 2 five_ok (initial five_paths) five_schedule).error_count = 1 ∧
    (run 2 five_ok (initial five_paths) five_schedule).completed_count ≠ five_paths.length := by
  have h : (run 2 five_ok (initial five_paths) five_schedule).completed_count = 4 := by rfl
  refine ⟨by rfl, by rfl, by rfl, h, by rfl, ?_⟩
  rw [h]
  decide

/-- C2: under every limit of at least one, every assignment of outcomes and
every schedule, the paths handed to `thread_function` so far, in launch order,
followed by the paths the loop has not reached, are the list `paths`; the
dispatcher can always be run to the end of `main`, and once it has returned the
paths handed to `thread_function` are exactly `paths`, in order. -/
theorem launches_in_discovery_order (paths : List Str) (limit : Nat) (ok : Nat → Bool)
    (hl : 1 ≤ limit) :
    (∀ before, ∃ schedule,
      (run limit ok (initial paths) (before ++ schedule)).pc = Pc.done) ∧
    (∀ schedule,
      (run limit ok (initial paths) schedule).workers.map Worker.path ++
        (run limit ok (initial paths) schedule).pending = paths) ∧
    (∀ schedule, (run limit ok (initial paths) schedule).pc = Pc.done →
      (run limit ok (initial paths) schedule).workers.map Worker.path = paths) := by
  refine ⟨fun before => returns_after limit ok paths hl before, ?_, ?_⟩
  · intro schedule
    exact (inv_run limit ok paths schedule).launched
  · intro schedule hpc
    exact (done_all_exited limit ok paths _ (inv_run limit ok paths schedule) hpc).1

theorem launches_in_discovery_order_witness :
    1 ≤ 2 ∧
    (run 2 five_ok (initial five_paths) five_schedule).workers.map Worker.path = five_paths :=
  ⟨by decide,
   (launches_in_discovery_order five_paths 2 five_ok (by decide)).2.2 five_schedule (by rfl)⟩

/-- C3: under every limit (so under every limit between one and the number of
jobs), every assignment of outcomes and every schedule, the vector `threads`
holds at most `limit` threads; and when `main` stands at the loop head with a
path left, the vector full and an id at the front of `finished_thread_ids`,
its next step pops that id and removes exactly the thread of that id, a
thread of the vector that has finished, before line 186 adds the next one. -/
theorem live_workers_bounded (paths : List Str) (limit : Nat) (ok : Nat → Bool)
    (schedule : List Event) :
    (run limit ok (initial paths) schedule).threads.length ≤ limit ∧
    ∀ s id queue, s = run limit ok (initial paths) schedule →
      s.pc = Pc.loop_head → s.pending ≠ [] → limit ≤ s.threads.length →
      s.finished_thread_ids = id :: queue →
        id ∈ s.threads ∧ s.phase_of id = some Phase.exited ∧
        (main_step limit s).threads = s.threads.erase id ∧
        (main_step limit s).threads.length + 1 = limit ∧
        (main_step limit s).finished_thread_ids = queue ∧
        (main_step limit s).pc = Pc.launch := by
  have h := inv_run limit ok paths schedule
  refine ⟨h.size_le, ?_⟩
  intro s id queue hs hpc hp hfull hq
  subst hs
  have hidq : id ∈ (run limit ok (initial paths) schedule).finished_thread_ids := by
    rw [hq]; simp
  have hidt := h.queue_sub id hidq
  obtain ⟨p, ps, hps⟩ := List.exists_cons_of_ne_nil hp
  have he := erase_finished_eq_erase id _ _ (Nat.le_refl _) h.threads_nodup
  have hstep : main_step limit (run limit ok (initial paths) schedule) =
      { run limit ok (initial paths) schedule with
        finished_thread_ids := queue,
        threads := erase_finished id (run limit ok (initial paths) schedule).threads,
        pc := Pc.launch } := by
    simp [main_step, hpc, hps, hfull, hq]
  rw [hstep]
  refine ⟨hidt, (h.queue_exited id hidt).mp hidq, he, ?_, rfl, rfl⟩
  show (erase_finished id (run limit ok (initial paths) schedule).threads).length + 1 = limit
  rw [he, List.length_erase_of_mem hidt]
  have := h.size_le
  have := List.length_pos_of_mem hidt
  omega

theorem live_workers_bounded_witness :
    (run 2 five_ok (initial five_paths) (five_schedule.take 7)).pc = Pc.loop_head ∧
    (run 2 five_ok (initial five_paths) (five_schedule.take 7)).finished_thread_ids = [1] ∧
    (main_step 2 (run 2 five_ok (initial five_paths) (five_schedule.take 7))).threads = [0] :=
  ⟨by rfl, by rfl,
   ((live_workers_bounded five_paths 2 five_ok (five_schedule.take 7)).2 _ 1 [] rfl
     (by rfl) (by decide) (by decide) (by rfl)).2.2.1⟩

/-- C4 fails on the code: for a hardware concurrency of 0 or 1 line 161 gives
`thread_count = 0`, not 1, and with a limit of 0 and at least one path no
schedule ever makes `main` start a thread or leave the loop: every run stays
in the initial state. -/
theorem thread_count_zero_never_starts :
    thread_count 0 = 0 ∧ thread_count 1 = 0 ∧ thread_count 1 ≠ max 1 (1 / 2) ∧
    ∀ (ok : Nat → Bool) (path : Str) (rest : List Str) (schedule : List Event),
      run (thread_count 1) ok (initial (path :: rest)) schedule = initial (path :: rest) := by
  refine ⟨by decide, by decide, by decide, ?_⟩
  intro ok path rest schedule
  exact stuck_without_threads ok path rest schedule

/-- C10: under every limit of at least one and every assignment of outcomes
the dispatcher can always be run to the end of `main`; a converting worker
increments exactly one counter by one, `completed_count` when its conversion
succeeds and `error_count` when it fails, and no counter afterwards; `main`
changes no counter; and once the dispatcher has returned,
`completed_count + error_count` is the number of jobs, `completed_count` the
number of successful jobs and `error_count` the number of failed jobs. -/
theorem counters_partition_jobs (paths : List Str) (limit : Nat) (ok : Nat → Bool)
    (hl : 1 ≤ limit) :
    (∀ before, ∃ schedule,
      (run limit ok (initial paths) (before ++ schedule)).pc = Pc.done) ∧
    (∀ s id,
      (thread_function ok id s).completed_count + (thread_function ok id s).error_count =
        s.completed_count + s.error_count +
          (if s.phase_of id = some Phase.converting then 1 else 0) ∧
      (thread_function ok id s).completed_count =
        s.completed_count +
          (if s.phase_of id = some Phase.converting ∧ ok id = true then 1 else 0) ∧
      (thread_function ok id s).error_count =
        s.error_count +
          (if s.phase_of id = some Phase.converting ∧ ok id = false then 1 else 0) ∧
      (thread_function ok id s).phase_of id ≠ some Phase.converting ∧
      (main_step limit s).completed_count = s.completed_count ∧
      (main_step limit s).error_count = s.error_count) ∧
    (∀ schedule, (run limit ok (initial paths) schedule).pc = Pc.done →
      (run limit ok (initial paths) schedule).completed_count +
        (run limit ok (initial paths) schedule).error_count = paths.length ∧
      (run limit ok (initial paths) schedule).completed_count = succeeded ok paths.length ∧
      (run limit ok (initial paths) schedule).error_count = failed ok paths.length) := by
  refine ⟨fun before => returns_after limit ok paths hl before, ?_, ?_⟩
  · intro s id
    obtain ⟨h1, h2⟩ := thread_function_counters ok id s
    refine ⟨?_, h1, h2, ?_, ?_, ?_⟩
    · rw [h1, h2]
      by_cases hph : s.phase_of id = some Phase.converting <;>
        cases hok : ok id <;> simp [hph] <;> omega
    · rw [thread_function_phase, if_pos rfl]
      split
      · simp
      · simp
      · next x h3 h4 =>
        intro hx
        exact h3 hx
    · unfold main_step
      repeat' split
      all_goals rfl
    · unfold main_step
      repeat' split
      all_goals rfl
  · intro schedule hpc
    obtain ⟨h1, h2⟩ := done_counts limit ok paths _ (inv_run limit ok paths schedule) hpc
    have := succeeded_add_failed ok paths.length
    exact ⟨by omega, h1, h2⟩

theorem counters_partition_jobs_witness :
    1 ≤ 2 ∧
    (run 2 five_ok (initial five_paths) five_schedule).completed_count +
      (run 2 five_ok (initial five_paths) five_schedule).error_count = five_paths.length :=
  ⟨by decide,
   ((counters_partition_jobs five_paths 2 five_ok (by decide)).2.2 five_schedule (by rfl)).1⟩

/-! ## The claim on the lock discipline -/

/-- C7 fails on the code: a worker makes every access to the shared progress
state while holding `completion_mutex`, whatever its outcome, but `main` never
locks it, so each of its accesses (the polls, `front` and `pop` of
`finished_thread_ids`, and the final read of `error_count`) is made without
the mutex. -/
theorem main_accesses_unguarded :
    (∀ ok, unguarded (thread_function_ops ok) = []) ∧
    unguarded (main_ops [0]) =
      [Shared.finished_thread_ids, Shared.finished_thread_ids, Shared.finished_thread_ids,
       Shared.error_count] ∧
    ∀ reclaims, Shared.error_count ∈ unguarded (main_ops reclaims) := by
  refine ⟨fun ok => by cases ok <;> rfl, by rfl, ?_⟩
  intro reclaims
  have hgen : ∀ ops : List Op, (∀ o ∈ ops, o ≠ Op.lock) →
      Shared.error_count ∈ unguarded_from false (ops ++ [Op.read Shared.error_count]) := by
    intro ops
    induction ops with
    | nil => intro _; simp [unguarded_from]
    | cons o os ih =>
      intro hno
      have hos := ih (fun x hx => hno x (List.mem_cons_of_mem _ hx))
      cases o with
      | lock => exact absurd rfl (hno Op.lock (by simp))
      | unlock => simpa [unguarded_from] using hos
      | read v => simp [unguarded_from, hos]
      | write v => simp [unguarded_from, hos]
  apply hgen
  intro o ho
  simp only [List.mem_flatMap, main_reclaim_ops, List.mem_append, List.mem_replicate,
    List.mem_cons] at ho
  obtain ⟨_, _, hx⟩ := ho
  rcases hx with ⟨_, e⟩ | e | e | e
  · rw [e]; simp
  · rw [e]; simp
  · rw [e]; simp
  · simp at e

end WebPConverter
